import Mathlib

/-!
Shallow embedding of `MCItemID.py`: an extractor that scans a Minecraft jar's
internal name listing for item/recipe/block entries, resolves display names
against the `en_us.json` localization table, and renders a text table.

Strings are modelled as Lean `String` (a list of unicode characters, matching
Python's code-point view of `str`); the Python primitives used by the source
(`str.replace`, `str.startswith`, `str.endswith`, `str.title`, `str.split`,
dict lookup, set insertion) are embedded below on the character list.
-/

namespace MCItemID

/-- Python `s.replace(p, r)`: replace every non-overlapping occurrence of `p`
in `s` by `r`, scanning left to right.  `fuel` bounds the recursion; each step
consumes at least one character, so `fuel = s.length` suffices. -/
def replaceAllAux (p r : List Char) : Nat → List Char → List Char
  | _, [] => []
  | 0, s => s
  | fuel + 1, c :: cs =>
    if p.isPrefixOf (c :: cs) ∧ p ≠ [] then
      r ++ replaceAllAux p r fuel (List.drop (p.length - 1) cs)
    else
      c :: replaceAllAux p r fuel cs

/-- Python `s.replace(p, r)` on `String`. -/
def pyReplace (s p r : String) : String :=
  ⟨replaceAllAux p.data r.data s.data.length s.data⟩

/-- Python `s.startswith(p)`. -/
def pyStartswith (s p : String) : Bool := p.data.isPrefixOf s.data

/-- Python `s.endswith(p)`. -/
def pyEndswith (s p : String) : Bool := p.data.isSuffixOf s.data

/-- Python `str.title`, one character at a time: a letter following a letter is
lowercased, a letter following a non-letter is uppercased (ASCII model). -/
def pyTitleAux : Bool → List Char → List Char
  | _, [] => []
  | prevCased, c :: cs =>
    if c.isAlpha then
      (if prevCased then c.toLower else c.toUpper) :: pyTitleAux true cs
    else
      c :: pyTitleAux false cs

/-- Python `s.title()`. -/
def pyTitle (s : String) : String := ⟨pyTitleAux false s.data⟩

/-- Lookup in a JSON-object association list; a duplicated key keeps the last
binding, as `json.load` does. -/
def dictGet (m : List (String × String)) (k : String) : Option String :=
  m.foldl (fun acc kv => if kv.1 = k then some kv.2 else acc) none

/-- Python `set.add`, on a duplicate-free list. -/
def sinsert (l : List String) (x : String) : List String :=
  if x ∈ l then l else x :: l

/-- The `assets/minecraft/models/item/` directory prefix scanned at line 25. -/
def itemModelDir : String := "assets/minecraft/models/item/"

/-- The `data/minecraft/recipes/` directory prefix scanned at line 55. -/
def recipesDir : String := "data/minecraft/recipes/"

/-- The `assets/minecraft/models/block/` directory prefix scanned at line 55. -/
def blockModelDir : String := "assets/minecraft/models/block/"

/-- Internal path of the localization resource (line 28). -/
def enLangPath : String := "assets/minecraft/lang/en_us.json"

/-- The fixed namespace prepended to every derived name (lines 42/62/65). -/
def mcns : String := "minecraft:"

/-- An archive: its internal name listing, plus the outcome of parsing the
`en_us.json` entry (`.error` models a `json.load` failure). -/
structure Jar where
  names : List String
  langData : Except Unit (List (String × String))

/-- One output record, the dict `{'id': ..., 'en_name': ...}` of line 87. -/
structure Record where
  id : String
  en_name : String
deriving DecidableEq

/-- Lines 28-36: the localization mapping is loaded only when the entry is
present in the listing and parses; otherwise it stays empty. -/
def loadLang (j : Jar) : List (String × String) :=
  if enLangPath ∈ j.names then
    match j.langData with
    | .ok d => d
    | .error _ => []
  else []

/-- Line 41: `model_file.replace('assets/minecraft/models/item/', '').replace('.json', '')`. -/
def derivedItemName (entry : String) : String :=
  pyReplace (pyReplace entry itemModelDir "") ".json" ""

/-- Line 61: the same derivation for the recipes prefix. -/
def derivedRecipeName (entry : String) : String :=
  pyReplace (pyReplace entry recipesDir "") ".json" ""

/-- Line 64: the same derivation for the block-model prefix. -/
def derivedBlockName (entry : String) : String :=
  pyReplace (pyReplace entry blockModelDir "") ".json" ""

/-- Lines 46/71/85: `name.replace('_', ' ').title()`, the fallback transform. -/
def readableName (item_name : String) : String :=
  pyTitle (pyReplace item_name "_" " ")

/-- Localization key `item.minecraft.<name>` (line 50). -/
def itemKey (n : String) : String := "item.minecraft." ++ n

/-- Localization key `block.minecraft.<name>` (line 75). -/
def blockKey (n : String) : String := "block.minecraft." ++ n

/-- Scanner state: the `item_ids` set and the `item_en_names` dict.  The dict
is modelled as an association list where an assignment prepends a binding, so
the leftmost binding for a key is the current value. -/
structure St where
  ids : List String
  names : List (String × String)
deriving DecidableEq

/-- Lines 39-52: process one item-model entry — derive the name, record the
identifier, store the fallback, then overwrite it when the `item.minecraft.*`
localization key is present. -/
def processItem (lang : List (String × String)) (st : St) (model_file : String) : St :=
  let item_name := derivedItemName model_file
  let item_id := mcns ++ item_name
  let ids := sinsert st.ids item_id
  let names1 := (item_id, readableName item_name) :: st.names
  match dictGet lang (itemKey item_name) with
  | some v => ⟨ids, (item_id, v) :: names1⟩
  | none => ⟨ids, names1⟩

/-- Lines 60-65: the name derived for an entry of the recipes or block-model
category — the branch on the loop's prefix variable. -/
def rbName (d : String) (file_path : String) : String :=
  if d = recipesDir then derivedRecipeName file_path else derivedBlockName file_path

/-- Lines 58-77, the body of the `try` block: process one recipe or
block-model entry.  The identifier is always added to the set; the name is
assigned only when the dict has no binding yet, preferring the
`block.minecraft.*` localization key over the fallback. -/
def rbBody (lang : List (String × String)) (d : String) (st : St) (file_path : String) : St :=
  let item_name := rbName d file_path
  let item_id := mcns ++ item_name
  let ids := sinsert st.ids item_id
  match List.lookup item_id st.names with
  | some _ => ⟨ids, st.names⟩
  | none =>
    let names1 := (item_id, readableName item_name) :: st.names
    match dictGet lang (blockKey item_name) with
    | some v => ⟨ids, (item_id, v) :: names1⟩
    | none => ⟨ids, names1⟩

/-- The `try` block of lines 58-77.  Every operation in the body is total, so
the embedded computation always succeeds. -/
def processRB (lang : List (String × String)) (d : String) (st : St) (file_path : String) :
    Except String St :=
  .ok (rbBody lang d st file_path)

/-- Lines 57-79: the per-candidate `try`/`except Exception: continue` loop — a
failing candidate leaves the state unchanged and processing moves on. -/
def tryFold {α : Type} (step : α → String → Except String α) (init : α)
    (files : List String) : α :=
  files.foldl (fun st f => match step st f with | .ok st' => st' | .error _ => st) init

/-- Lines 39-52: the loop over the item-model entries. -/
def phase1 (lang : List (String × String)) (files : List String) (st : St) : St :=
  files.foldl (processItem lang) st

/-- Lines 55-79: the loop over the recipes and block-model prefixes. -/
def phase2 (lang : List (String × String)) (allNames : List String) (st : St) : St :=
  [ recipesDir, blockModelDir ].foldl
    (fun s d => tryFold (processRB lang d) s (allNames.filter (fun n => pyStartswith n d))) st

/-- Lines 84-90: the record built for one collected identifier; the fallback
default is used only when the dict has no binding. -/
def recordFor (st : St) (item_id : String) : Record :=
  let default_name := readableName ((item_id.splitOn ":").getD 1 "")
  ⟨item_id, (List.lookup item_id st.names).getD default_name⟩

/-- Lines 82-92: sort the collected identifiers and pair each with its name. -/
def buildRecords (st : St) : List Record :=
  (List.insertionSort (fun a b => a ≤ b) st.ids).map (recordFor st)

/-- Lines 23-92: the core of `extract_item_data_from_jar`, on an open archive. -/
def extractFromJar (j : Jar) : List Record :=
  let lang := loadLang j
  let st1 := phase1 lang (j.names.filter (fun n => pyStartswith n itemModelDir)) ⟨[], []⟩
  let st2 := phase2 lang j.names st1
  buildRecords st2

/-- The `FileNotFoundError` message of line 13. -/
def jarNotFoundMsg (path : String) : String := "JAR-файл не найден в папке " ++ path

/-- Lines 7-92: `extract_item_data_from_jar` — find the first `.jar` file in
the directory listing (raising when there is none) and extract from it.
`jars` maps an archive path to the archive it opens as. -/
def extract_item_data_from_jar (path : String) (listing : List String)
    (jars : String → Jar) : Except String (List Record) :=
  match listing.filter (fun f => pyEndswith f ".jar") with
  | [] => .error (jarNotFoundMsg path)
  | f :: _ => .ok (extractFromJar (jars (path ++ "/" ++ f)))

/-- Python `max(l or [d])` (lines 98-99): the plain maximum of a non-empty
list, the floor `d` only when the list is empty. -/
def pyMaxOr (l : List Nat) (d : Nat) : Nat :=
  match l with
  | [] => d
  | x :: xs => xs.foldl Nat.max x

/-- Python `s * n` for strings (line 103). -/
def pyStrMul (s : String) (n : Nat) : String := ⟨(List.replicate n s.data).flatten⟩

/-- Python `f"{s:{w}}"`: left-align `s` in a field of `w` characters. -/
def pyLjust (s : String) (w : Nat) : String := s ++ ⟨List.replicate (w - s.length) ' '⟩

/-- Line 98: identifier column width. -/
def max_id_len (item_data : List Record) : Nat :=
  pyMaxOr (item_data.map (fun i => i.id.length)) 10 + 2

/-- Line 99: name column width. -/
def max_en_len (item_data : List Record) : Nat :=
  pyMaxOr (item_data.map (fun i => i.en_name.length)) 20 + 2

/-- Line 102: the header row. -/
def tableHeader (item_data : List Record) : String :=
  pyLjust "ID" (max_id_len item_data) ++ " | " ++
    pyLjust "Английское название" (max_en_len item_data)

/-- Line 103: the separator row. -/
def tableSeparator (item_data : List Record) : String :=
  pyStrMul "-" (max_id_len item_data) ++ "-+-" ++ pyStrMul "-" (max_en_len item_data)

/-- Lines 94-112: `save_item_data_to_txt`, returning the file content that is
written. -/
def save_item_data_to_txt (item_data : List Record) : String :=
  item_data.foldl
    (fun acc item =>
      acc ++ pyLjust item.id (max_id_len item_data) ++ " | " ++
        pyLjust item.en_name (max_en_len item_data) ++ "\n")
    (tableHeader item_data ++ "\n" ++ tableSeparator item_data ++ "\n")

/-- Lines 114-137: `main` after the path prompt — when the directory exists,
run the extraction and, on success, write the table; the result is the content
of the output file, `none` when no file is written. -/
def runMain (dirExists : Bool) (path : String) (listing : List String)
    (jars : String → Jar) : Option String :=
  if dirExists then
    match extract_item_data_from_jar path listing jars with
    | .ok item_data => some (save_item_data_to_txt item_data)
    | .error _ => none
  else none

/-- Does the pattern `p` occur (contiguously) anywhere in the list?  Scanning
form matching the left-to-right scan of `replaceAllAux`. -/
def hasPat (p : List Char) : List Char → Bool
  | [] => false
  | c :: cs => p.isPrefixOf (c :: cs) || hasPat p cs

/-- The name the item-model loop (lines 45-52) leaves stored for a derived
name `n`: the `item.minecraft.*` localization value when present, the
fallback otherwise. -/
def itemResolved (lang : List (String × String)) (n : String) : String :=
  match dictGet lang (itemKey n) with
  | some v => v
  | none => readableName n

/-- Invariant: every collected identifier is `minecraft:` followed by some
derived name. -/
def IdsInv (st : St) : Prop := ∀ id ∈ st.ids, ∃ n, id = mcns ++ n

/-- Invariant: every collected identifier has a binding in the name dict. -/
def BoundInv (st : St) : Prop := ∀ id ∈ st.ids, (List.lookup id st.names).isSome

/-- Invariant: every binding in the name dict pairs `minecraft:n` with either
the fallback for `n` or a localization value found under `n`'s item or block
key. -/
def NameInv (lang : List (String × String)) (st : St) : Prop :=
  ∀ p ∈ st.names, ∃ n, p.1 = mcns ++ n ∧
    (p.2 = readableName n ∨ dictGet lang (itemKey n) = some p.2 ∨
      dictGet lang (blockKey n) = some p.2)

/-- The bundle of scanner-state invariants. -/
def StInv (lang : List (String × String)) (st : St) : Prop :=
  st.ids.Nodup ∧ IdsInv st ∧ BoundInv st ∧ NameInv lang st

/-- An archive map every file of which opens as the empty archive. -/
def trivJars : String → Jar := fun _ => ⟨[], .ok []⟩

/-- A candidate-processing step that fails on the entry `"boom"` — used to
exhibit the skip-and-continue behaviour of the `try`/`except` loop. -/
def badStep (st : St) (f : String) : Except String St :=
  if f = "boom" then .error f else .ok st

/-- Archive holding the same identifier as an item model and a block model,
with a localization entry only under the block key. -/
def jarOakLog : Jar :=
  ⟨[ "assets/minecraft/models/item/oak_log.json",
     "assets/minecraft/models/block/oak_log.json",
     "assets/minecraft/lang/en_us.json" ],
   .ok [ ("block.minecraft.oak_log", "Oak Wood Log") ]⟩

/-- Archive whose only matching entry is the directory placeholder itself. -/
def jarPlaceholder : Jar := ⟨[ "assets/minecraft/models/item/" ], .ok []⟩

/-- Archive with an entry whose name contains `.json` in the middle. -/
def jarDotJson : Jar := ⟨[ "assets/minecraft/models/item/a.json.json" ], .ok []⟩

/-- Archive with one item model and a localization entry for it. -/
def jarDiamond : Jar :=
  ⟨[ "assets/minecraft/models/item/diamond_sword.json",
     "assets/minecraft/lang/en_us.json" ],
   .ok [ ("item.minecraft.diamond_sword", "Diamond Sword") ]⟩

/-- Archive with one item model and no localization file. -/
def jarStick : Jar := ⟨[ "assets/minecraft/models/item/stick.json" ], .ok []⟩

/-- Archive whose localization maps the item key to the empty string. -/
def jarEmptyLoc : Jar :=
  ⟨[ "assets/minecraft/models/item/stick.json",
     "assets/minecraft/lang/en_us.json" ],
   .ok [ ("item.minecraft.stick", "") ]⟩

/-- Archive with an item-model entry that is not a `.json` file. -/
def jarPng : Jar := ⟨[ "assets/minecraft/models/item/foo.png" ], .ok []⟩

/-- The scanner state after both scanning phases of `extractFromJar`. -/
def scanState (j : Jar) : St :=
  phase2 (loadLang j) j.names
    (phase1 (loadLang j) (j.names.filter (fun n => pyStartswith n itemModelDir)) ⟨[], []⟩)

theorem string_eq_of_data {a b : String} (h : a.data = b.data) : a = b := by
  cases a
  cases b
  exact congrArg String.mk h

theorem mcns_append_inj {a b : String} (h : mcns ++ a = mcns ++ b) : a = b := by
  have hd : (mcns ++ a).data = (mcns ++ b).data := by rw [h]
  rw [String.data_append, String.data_append] at hd
  exact string_eq_of_data (List.append_cancel_left hd)

theorem mem_sinsert_self (l : List String) (x : String) : x ∈ sinsert l x := by
  unfold sinsert
  split
  · assumption
  · exact List.mem_cons_self x l

theorem mem_sinsert_of_mem {l : List String} {y : String} (x : String) (h : y ∈ l) :
    y ∈ sinsert l x := by
  unfold sinsert
  split
  · exact h
  · exact List.mem_cons_of_mem x h

theorem mem_sinsert {l : List String} {x y : String} :
    y ∈ sinsert l x ↔ y = x ∨ y ∈ l := by
  unfold sinsert
  split
  · rename_i hx
    constructor
    · exact Or.inr
    · intro h
      rcases h with rfl | h
      · exact hx
      · exact h
  · exact List.mem_cons

theorem sinsert_nodup {l : List String} (h : l.Nodup) (x : String) :
    (sinsert l x).Nodup := by
  unfold sinsert
  split
  · exact h
  · rename_i hx
    exact List.nodup_cons.mpr ⟨hx, h⟩

theorem subset_sinsert (l : List String) (x : String) : l ⊆ sinsert l x :=
  fun _ h => mem_sinsert_of_mem x h

theorem dictGet_foldl_mem {m : List (String × String)} {k v : String} :
    ∀ {acc : Option String},
      m.foldl (fun acc kv => if kv.1 = k then some kv.2 else acc) acc = some v →
      (k, v) ∈ m ∨ acc = some v := by
  induction m with
  | nil => exact fun h => Or.inr h
  | cons p t ih =>
    intro acc h
    rw [List.foldl_cons] at h
    rcases ih h with hm | ha
    · exact Or.inl (List.mem_cons_of_mem _ hm)
    · by_cases hp : p.1 = k
      · rw [if_pos hp] at ha
        injection ha with hv
        left
        have : p = (k, v) := by
          cases p
          simp_all
        rw [this]
        exact List.mem_cons_self _ _
      · rw [if_neg hp] at ha
        exact Or.inr ha

theorem dictGet_mem {m : List (String × String)} {k v : String}
    (h : dictGet m k = some v) : (k, v) ∈ m := by
  rcases dictGet_foldl_mem h with hm | ha
  · exact hm
  · cases ha

theorem lookup_cons_self {m : List (String × String)} {k v : String} :
    List.lookup k ((k, v) :: m) = some v := by
  simp [List.lookup]

theorem lookup_cons_ne {m : List (String × String)} {k k' v : String} (h : k' ≠ k) :
    List.lookup k ((k', v) :: m) = List.lookup k m := by
  have hb : (k == k') = false := beq_eq_false_iff_ne.mpr (Ne.symm h)
  simp [List.lookup, hb]

theorem lookup_isSome_cons {m : List (String × String)} {k k' v' : String}
    (h : (List.lookup k m).isSome) : (List.lookup k ((k', v') :: m)).isSome := by
  by_cases hk : k' = k
  · subst hk
    rw [lookup_cons_self]
    rfl
  · rw [lookup_cons_ne hk]
    exact h

theorem mem_of_lookup {m : List (String × String)} {k v : String}
    (h : List.lookup k m = some v) : (k, v) ∈ m := by
  induction m with
  | nil => simp [List.lookup] at h
  | cons p t ih =>
    cases p with
    | mk k' v' =>
      by_cases hk : k' = k
      · subst hk
        rw [lookup_cons_self] at h
        injection h with h'
        subst h'
        exact List.mem_cons_self _ _
      · rw [lookup_cons_ne hk] at h
        exact List.mem_cons_of_mem _ (ih h)

theorem replaceAllAux_nil (p r : List Char) (fuel : Nat) :
    replaceAllAux p r fuel [] = [] := by
  cases fuel <;> rfl

theorem isPrefixOf_append_self : ∀ (l t : List Char), l.isPrefixOf (l ++ t) = true
  | [], _ => by simp [List.isPrefixOf]
  | a :: l, t => by simp [List.isPrefixOf, isPrefixOf_append_self l t]

theorem replaceAllAux_fuel {p r : List Char} :
    ∀ (f1 f2 : Nat) (s : List Char), s.length ≤ f1 → s.length ≤ f2 →
      replaceAllAux p r f1 s = replaceAllAux p r f2 s := by
  intro f1
  induction f1 with
  | zero =>
    intro f2 s h1 _
    have hs : s = [] := List.length_eq_zero.mp (Nat.le_zero.mp h1)
    subst hs
    rw [replaceAllAux_nil, replaceAllAux_nil]
  | succ n ih =>
    intro f2 s h1 h2
    cases s with
    | nil => rw [replaceAllAux_nil, replaceAllAux_nil]
    | cons c cs =>
      cases f2 with
      | zero => simp at h2
      | succ m =>
        simp only [replaceAllAux]
        by_cases hc : p.isPrefixOf (c :: cs) = true ∧ p ≠ []
        · rw [if_pos hc, if_pos hc]
          have hlen : (List.drop (p.length - 1) cs).length ≤ cs.length := by
            rw [List.length_drop]
            omega
          have hn : cs.length ≤ n := Nat.le_of_succ_le_succ h1
          have hm : cs.length ≤ m := Nat.le_of_succ_le_succ h2
          exact congrArg (r ++ ·) (ih m _ (Nat.le_trans hlen hn) (Nat.le_trans hlen hm))
        · rw [if_neg hc, if_neg hc]
          exact congrArg (c :: ·)
            (ih m cs (Nat.le_of_succ_le_succ h1) (Nat.le_of_succ_le_succ h2))

theorem replaceAllAux_head {p r : List Char} (hp : p ≠ []) (s : List Char) (fuel : Nat)
    (hf : (p ++ s).length ≤ fuel + 1) :
    replaceAllAux p r (fuel + 1) (p ++ s) = r ++ replaceAllAux p r fuel s := by
  cases p with
  | nil => exact absurd rfl hp
  | cons a as =>
    rw [List.cons_append]
    simp only [replaceAllAux]
    rw [if_pos ⟨by rw [← List.cons_append]; exact isPrefixOf_append_self (a :: as) s, hp⟩]
    have hd : List.drop ((a :: as).length - 1) (as ++ s) = s := by
      rw [show (a :: as).length - 1 = as.length by simp, List.drop_left]
    rw [hd]

theorem replaceAllAux_strip_head {p r : List Char} (hp : p ≠ []) (s : List Char) (fuel : Nat)
    (hf : (p ++ s).length ≤ fuel) :
    replaceAllAux p r fuel (p ++ s) = r ++ replaceAllAux p r s.length s := by
  cases fuel with
  | zero =>
    exfalso
    have : p = [] ∧ s = [] := by
      constructor <;> [skip; skip] <;> (apply List.length_eq_zero.mp)
      · have := Nat.le_zero.mp hf
        rw [List.length_append] at this
        omega
      · have := Nat.le_zero.mp hf
        rw [List.length_append] at this
        omega
    exact hp this.1
  | succ n =>
    rw [replaceAllAux_head hp s n hf]
    have hs : s.length ≤ n := by
      rw [List.length_append] at hf
      have hp1 : 1 ≤ p.length := by
        cases p
        · exact absurd rfl hp
        · simp
      omega
    exact congrArg (r ++ ·) (replaceAllAux_fuel n s.length s hs Nat.le.refl)

theorem replaceAllAux_no_occ {p r : List Char} :
    ∀ (s : List Char) (fuel : Nat), hasPat p s = false → s.length ≤ fuel →
      replaceAllAux p r fuel s = s := by
  intro s
  induction s with
  | nil => exact fun fuel _ _ => replaceAllAux_nil p r fuel
  | cons c cs ih =>
    intro fuel h hf
    cases fuel with
    | zero => simp at hf
    | succ n =>
      have hor := h
      unfold hasPat at hor
      rw [Bool.or_eq_false_iff] at hor
      simp only [replaceAllAux]
      rw [if_neg]
      · exact congrArg (c :: ·) (ih n hor.2 (Nat.le_of_succ_le_succ hf))
      · intro hcond
        rw [hor.1] at hcond
        exact Bool.noConfusion hcond.1

theorem replaceAllAux_trailing {p : List Char} (hp : p ≠ []) :
    ∀ (mid : List Char) (fuel : Nat),
      (∀ i < mid.length, p.isPrefixOf (List.drop i (mid ++ p)) = false) →
      (mid ++ p).length ≤ fuel →
      replaceAllAux p [] fuel (mid ++ p) = mid := by
  intro mid
  induction mid with
  | nil =>
    intro fuel _ hf
    rw [List.nil_append] at hf ⊢
    have h2 := replaceAllAux_strip_head (r := []) hp [] fuel (by rwa [List.append_nil])
    rw [List.append_nil, replaceAllAux_nil, List.append_nil] at h2
    exact h2
  | cons c cs ih =>
    intro fuel h hf
    cases fuel with
    | zero => simp at hf
    | succ n =>
      rw [List.cons_append]
      simp only [replaceAllAux]
      rw [if_neg]
      · refine congrArg (c :: ·) (ih n ?_ ?_)
        · intro i hi
          have := h (i + 1) (by simpa using Nat.succ_lt_succ hi)
          rwa [List.cons_append, List.drop_succ_cons] at this
        · rw [List.cons_append, List.length_cons] at hf
          omega
      · intro hcond
        have h0 := h 0 (by simp)
        rw [List.drop_zero, List.cons_append] at h0
        rw [h0] at hcond
        exact Bool.noConfusion hcond.1

theorem pyTitleAux_length : ∀ (b : Bool) (s : List Char),
    (pyTitleAux b s).length = s.length := by
  intro b s
  induction s generalizing b with
  | nil => rfl
  | cons c cs ih =>
    simp only [pyTitleAux]
    split <;> simp [ih]

theorem replaceAllAux_singleton_length (a b : Char) :
    ∀ (fuel : Nat) (s : List Char), (replaceAllAux [a] [b] fuel s).length = s.length := by
  intro fuel
  induction fuel with
  | zero => intro s; cases s <;> rfl
  | succ n ih =>
    intro s
    cases s with
    | nil => rfl
    | cons c cs =>
      simp only [replaceAllAux]
      split
      · simp [ih]
      · simp [ih]

theorem readableName_length (s : String) : (readableName s).length = s.length := by
  show (pyTitleAux false (replaceAllAux "_".data " ".data s.data.length s.data)).length
    = s.data.length
  rw [pyTitleAux_length]
  rw [show "_".data = [ '_' ] from rfl, show " ".data = [ ' ' ] from rfl]
  exact replaceAllAux_singleton_length '_' ' ' _ _

theorem readableName_ne_empty {s : String} (h : s ≠ "") : readableName s ≠ "" := by
  intro he
  apply h
  have h1 := readableName_length s
  rw [he] at h1
  apply string_eq_of_data
  have : s.data.length = 0 := by
    have h0 : ("" : String).length = 0 := rfl
    rw [h0] at h1
    exact h1.symm
  simpa using List.length_eq_zero.mp this

theorem processItem_ids (lang : List (String × String)) (st : St) (f : String) :
    (processItem lang st f).ids = sinsert st.ids (mcns ++ derivedItemName f) := by
  cases hdg : dictGet lang (itemKey (derivedItemName f)) <;> simp [processItem, hdg]

theorem processItem_lookup_self (lang : List (String × String)) (st : St) (f : String) :
    List.lookup (mcns ++ derivedItemName f) (processItem lang st f).names =
      some (itemResolved lang (derivedItemName f)) := by
  cases hdg : dictGet lang (itemKey (derivedItemName f)) with
  | none => simp [processItem, itemResolved, hdg, lookup_cons_self]
  | some v => simp [processItem, itemResolved, hdg, lookup_cons_self]

theorem processItem_lookup_other (lang : List (String × String)) (st : St) (f : String)
    {k : String} (hk : k ≠ mcns ++ derivedItemName f) :
    List.lookup k (processItem lang st f).names = List.lookup k st.names := by
  cases hdg : dictGet lang (itemKey (derivedItemName f)) with
  | none => simp [processItem, hdg, lookup_cons_ne (Ne.symm hk)]
  | some v => simp [processItem, hdg, lookup_cons_ne (Ne.symm hk)]

theorem processItem_lookup_isSome (lang : List (String × String)) (st : St) (f : String)
    {k : String} (h : (List.lookup k st.names).isSome) :
    (List.lookup k (processItem lang st f).names).isSome := by
  by_cases hk : k = mcns ++ derivedItemName f
  · subst hk
    rw [processItem_lookup_self]
    rfl
  · rw [processItem_lookup_other lang st f hk]
    exact h

theorem processItem_nameInv (lang : List (String × String)) (st : St) (f : String)
    (h : NameInv lang st) : NameInv lang (processItem lang st f) := by
  intro p hp
  cases hdg : dictGet lang (itemKey (derivedItemName f)) with
  | none =>
    simp only [processItem, hdg] at hp
    rcases List.mem_cons.mp hp with rfl | hp'
    · exact ⟨derivedItemName f, rfl, Or.inl rfl⟩
    · exact h p hp'
  | some v =>
    simp only [processItem, hdg] at hp
    rcases List.mem_cons.mp hp with rfl | hp'
    · exact ⟨derivedItemName f, rfl, Or.inr (Or.inl hdg)⟩
    · rcases List.mem_cons.mp hp' with rfl | hp''
      · exact ⟨derivedItemName f, rfl, Or.inl rfl⟩
      · exact h p hp''

theorem rbBody_ids (lang : List (String × String)) (d : String) (st : St) (f : String) :
    (rbBody lang d st f).ids = sinsert st.ids (mcns ++ rbName d f) := by
  cases hlk : List.lookup (mcns ++ rbName d f) st.names with
  | some v => simp [rbBody, hlk]
  | none =>
    cases hdg : dictGet lang (blockKey (rbName d f)) with
    | none => simp [rbBody, hlk, hdg]
    | some v => simp [rbBody, hlk, hdg]

theorem rbBody_lookup_preserved (lang : List (String × String)) (d : String) (st : St)
    (f : String) {k v : String} (h : List.lookup k st.names = some v) :
    List.lookup k (rbBody lang d st f).names = some v := by
  cases hlk : List.lookup (mcns ++ rbName d f) st.names with
  | some v' => simpa [rbBody, hlk] using h
  | none =>
    have hk : k ≠ mcns ++ rbName d f := by
      intro he
      rw [he, hlk] at h
      cases h
    cases hdg : dictGet lang (blockKey (rbName d f)) with
    | none => simpa [rbBody, hlk, hdg, lookup_cons_ne (Ne.symm hk)] using h
    | some v' => simpa [rbBody, hlk, hdg, lookup_cons_ne (Ne.symm hk)] using h

theorem rbBody_lookup_isSome_self (lang : List (String × String)) (d : String) (st : St)
    (f : String) :
    (List.lookup (mcns ++ rbName d f) (rbBody lang d st f).names).isSome := by
  cases hlk : List.lookup (mcns ++ rbName d f) st.names with
  | some v => simp [rbBody, hlk]
  | none =>
    cases hdg : dictGet lang (blockKey (rbName d f)) with
    | none => simp [rbBody, hlk, hdg, lookup_cons_self]
    | some v => simp [rbBody, hlk, hdg, lookup_cons_self]

theorem rbBody_lookup_isSome (lang : List (String × String)) (d : String) (st : St)
    (f : String) {k : String} (h : (List.lookup k st.names).isSome) :
    (List.lookup k (rbBody lang d st f).names).isSome := by
  obtain ⟨v, hv⟩ := Option.isSome_iff_exists.mp h
  rw [rbBody_lookup_preserved lang d st f hv]
  rfl

theorem rbBody_nameInv (lang : List (String × String)) (d : String) (st : St) (f : String)
    (h : NameInv lang st) : NameInv lang (rbBody lang d st f) := by
  intro p hp
  cases hlk : List.lookup (mcns ++ rbName d f) st.names with
  | some v =>
    simp only [rbBody, hlk] at hp
    exact h p hp
  | none =>
    cases hdg : dictGet lang (blockKey (rbName d f)) with
    | none =>
      simp only [rbBody, hlk, hdg] at hp
      rcases List.mem_cons.mp hp with rfl | hp'
      · exact ⟨rbName d f, rfl, Or.inl rfl⟩
      · exact h p hp'
    | some v =>
      simp only [rbBody, hlk, hdg] at hp
      rcases List.mem_cons.mp hp with rfl | hp'
      · exact ⟨rbName d f, rfl, Or.inr (Or.inr hdg)⟩
      · rcases List.mem_cons.mp hp' with rfl | hp''
        · exact ⟨rbName d f, rfl, Or.inl rfl⟩
        · exact h p hp''

theorem processItem_inv (lang : List (String × String)) (st : St) (f : String)
    (h : StInv lang st) : StInv lang (processItem lang st f) := by
  obtain ⟨hnd, hids, hbound, hname⟩ := h
  refine ⟨?_, ?_, ?_, processItem_nameInv lang st f hname⟩
  · rw [processItem_ids]
    exact sinsert_nodup hnd _
  · intro id hid
    rw [processItem_ids] at hid
    rcases mem_sinsert.mp hid with rfl | hid'
    · exact ⟨derivedItemName f, rfl⟩
    · exact hids id hid'
  · intro id hid
    rw [processItem_ids] at hid
    rcases mem_sinsert.mp hid with rfl | hid'
    · rw [processItem_lookup_self]
      rfl
    · exact processItem_lookup_isSome lang st f (hbound id hid')

theorem rbBody_inv (lang : List (String × String)) (d : String) (st : St) (f : String)
    (h : StInv lang st) : StInv lang (rbBody lang d st f) := by
  obtain ⟨hnd, hids, hbound, hname⟩ := h
  refine ⟨?_, ?_, ?_, rbBody_nameInv lang d st f hname⟩
  · rw [rbBody_ids]
    exact sinsert_nodup hnd _
  · intro id hid
    rw [rbBody_ids] at hid
    rcases mem_sinsert.mp hid with rfl | hid'
    · exact ⟨rbName d f, rfl⟩
    · exact hids id hid'
  · intro id hid
    rw [rbBody_ids] at hid
    rcases mem_sinsert.mp hid with rfl | hid'
    · exact rbBody_lookup_isSome_self lang d st f
    · exact rbBody_lookup_isSome lang d st f (hbound id hid')

theorem phase1_inv (lang : List (String × String)) :
    ∀ (files : List String) (st : St), StInv lang st → StInv lang (phase1 lang files st) := by
  intro files
  induction files with
  | nil => exact fun st h => h
  | cons g gs ih => exact fun st h => ih _ (processItem_inv lang st g h)

theorem foldl_rb_inv (lang : List (String × String)) (d : String) :
    ∀ (files : List String) (st : St), StInv lang st →
      StInv lang (files.foldl (rbBody lang d) st) := by
  intro files
  induction files with
  | nil => exact fun st h => h
  | cons g gs ih => exact fun st h => ih _ (rbBody_inv lang d st g h)

theorem tryFold_rb_eq (lang : List (String × String)) (d : String) :
    ∀ (files : List String) (st : St),
      tryFold (processRB lang d) st files = files.foldl (rbBody lang d) st := by
  intro files
  induction files with
  | nil => exact fun _ => rfl
  | cons g gs ih => exact fun st => ih _

theorem phase2_eq (lang : List (String × String)) (ns : List String) (st : St) :
    phase2 lang ns st =
      (ns.filter (fun n => pyStartswith n blockModelDir)).foldl (rbBody lang blockModelDir)
        ((ns.filter (fun n => pyStartswith n recipesDir)).foldl (rbBody lang recipesDir) st) := by
  show tryFold (processRB lang blockModelDir)
      (tryFold (processRB lang recipesDir) st (ns.filter (fun n => pyStartswith n recipesDir)))
      (ns.filter (fun n => pyStartswith n blockModelDir)) = _
  rw [tryFold_rb_eq, tryFold_rb_eq]

theorem phase2_inv (lang : List (String × String)) (ns : List String) (st : St)
    (h : StInv lang st) : StInv lang (phase2 lang ns st) := by
  rw [phase2_eq]
  exact foldl_rb_inv lang blockModelDir _ _ (foldl_rb_inv lang recipesDir _ _ h)

theorem foldl_rb_lookup_preserved (lang : List (String × String)) (d : String) :
    ∀ (files : List String) (st : St) {k v : String},
      List.lookup k st.names = some v →
      List.lookup k (files.foldl (rbBody lang d) st).names = some v := by
  intro files
  induction files with
  | nil => intro st k v h; exact h
  | cons g gs ih => intro st k v h; exact ih _ (rbBody_lookup_preserved lang d st g h)

theorem phase2_lookup_preserved (lang : List (String × String)) (ns : List String) (st : St)
    {k v : String} (h : List.lookup k st.names = some v) :
    List.lookup k (phase2 lang ns st).names = some v := by
  rw [phase2_eq]
  exact foldl_rb_lookup_preserved _ _ _ _ (foldl_rb_lookup_preserved _ _ _ _ h)

theorem phase1_ids_sub (lang : List (String × String)) :
    ∀ (files : List String) (st : St), st.ids ⊆ (phase1 lang files st).ids := by
  intro files
  induction files with
  | nil => exact fun st => fun _ h => h
  | cons g gs ih =>
    intro st x hx
    refine ih (processItem lang st g) ?_
    rw [processItem_ids]
    exact subset_sinsert _ _ hx

theorem foldl_rb_ids_sub (lang : List (String × String)) (d : String) :
    ∀ (files : List String) (st : St), st.ids ⊆ (files.foldl (rbBody lang d) st).ids := by
  intro files
  induction files with
  | nil => exact fun st => fun _ h => h
  | cons g gs ih =>
    intro st x hx
    refine ih (rbBody lang d st g) ?_
    rw [rbBody_ids]
    exact subset_sinsert _ _ hx

theorem phase2_ids_sub (lang : List (String × String)) (ns : List String) (st : St) :
    st.ids ⊆ (phase2 lang ns st).ids := by
  rw [phase2_eq]
  exact fun x hx =>
    foldl_rb_ids_sub lang blockModelDir _ _ (foldl_rb_ids_sub lang recipesDir _ _ hx)

theorem phase1_mem_ids (lang : List (String × String)) :
    ∀ (files : List String) (st : St) (f : String), f ∈ files →
      (mcns ++ derivedItemName f) ∈ (phase1 lang files st).ids := by
  intro files
  induction files with
  | nil => intro st f h; cases h
  | cons g gs ih =>
    intro st f h
    rcases List.mem_cons.mp h with rfl | hmem
    · refine phase1_ids_sub lang gs (processItem lang st f) ?_
      rw [processItem_ids]
      exact mem_sinsert_self _ _
    · exact ih _ f hmem

theorem foldl_rb_mem_ids (lang : List (String × String)) (d : String) :
    ∀ (files : List String) (st : St) (f : String), f ∈ files →
      (mcns ++ rbName d f) ∈ (files.foldl (rbBody lang d) st).ids := by
  intro files
  induction files with
  | nil => intro st f h; cases h
  | cons g gs ih =>
    intro st f h
    rcases List.mem_cons.mp h with rfl | hmem
    · refine foldl_rb_ids_sub lang d gs (rbBody lang d st f) ?_
      rw [rbBody_ids]
      exact mem_sinsert_self _ _
    · exact ih _ f hmem

theorem processItem_preserve_resolved (lang : List (String × String)) (st : St) (f : String)
    {n : String} (h : List.lookup (mcns ++ n) st.names = some (itemResolved lang n)) :
    List.lookup (mcns ++ n) (processItem lang st f).names = some (itemResolved lang n) := by
  by_cases he : derivedItemName f = n
  · subst he
    exact processItem_lookup_self lang st f
  · have hk : mcns ++ n ≠ mcns ++ derivedItemName f := fun hc => he (mcns_append_inj hc).symm
    rw [processItem_lookup_other lang st f hk]
    exact h

theorem phase1_preserve_resolved (lang : List (String × String)) :
    ∀ (files : List String) (st : St) {n : String},
      List.lookup (mcns ++ n) st.names = some (itemResolved lang n) →
      List.lookup (mcns ++ n) (phase1 lang files st).names = some (itemResolved lang n) := by
  intro files
  induction files with
  | nil => intro st n h; exact h
  | cons g gs ih => intro st n h; exact ih _ (processItem_preserve_resolved lang st g h)

theorem phase1_resolved (lang : List (String × String)) :
    ∀ (files : List String) (st : St) (f : String), f ∈ files →
      List.lookup (mcns ++ derivedItemName f) (phase1 lang files st).names =
        some (itemResolved lang (derivedItemName f)) := by
  intro files
  induction files with
  | nil => intro st f h; cases h
  | cons g gs ih =>
    intro st f h
    by_cases hm : f ∈ gs
    · exact ih _ f hm
    · have hfg : f = g := by
        rcases List.mem_cons.mp h with h' | h'
        · exact h'
        · exact absurd h' hm
      subst hfg
      exact phase1_preserve_resolved lang gs _ (processItem_lookup_self lang st f)

theorem mem_buildRecords {st : St} {r : Record} :
    r ∈ buildRecords st ↔ ∃ id ∈ st.ids, r = recordFor st id := by
  unfold buildRecords
  rw [List.mem_map]
  constructor
  · rintro ⟨id, hid, rfl⟩
    exact ⟨id, (List.perm_insertionSort _ st.ids).mem_iff.mp hid, rfl⟩
  · rintro ⟨id, hid, rfl⟩
    exact ⟨id, (List.perm_insertionSort _ st.ids).mem_iff.mpr hid, rfl⟩

theorem recordFor_name_eq {st : St} {id v : String}
    (h : List.lookup id st.names = some v) : recordFor st id = ⟨id, v⟩ := by
  unfold recordFor
  rw [h]
  rfl

theorem mem_map_id_buildRecords {st : St} {x : String} (h : x ∈ st.ids) :
    x ∈ (buildRecords st).map Record.id := by
  unfold buildRecords
  rw [List.map_map]
  exact List.mem_map.mpr ⟨x, (List.perm_insertionSort _ st.ids).mem_iff.mpr h, rfl⟩

theorem buildRecords_pairwise {st : St} (h : st.ids.Nodup) :
    List.Pairwise (fun a b : Record => a.id < b.id) (buildRecords st) := by
  unfold buildRecords
  rw [List.pairwise_map]
  have hs : List.Pairwise (fun a b : String => a ≤ b)
      (List.insertionSort (fun a b : String => a ≤ b) st.ids) :=
    List.sorted_insertionSort _ st.ids
  have hn : (List.insertionSort (fun a b : String => a ≤ b) st.ids).Nodup :=
    (List.perm_insertionSort _ st.ids).nodup_iff.mpr h
  exact (hs.and hn).imp (fun hab => lt_of_le_of_ne hab.1 hab.2)

theorem extractFromJar_eq (j : Jar) : extractFromJar j = buildRecords (scanState j) := rfl

theorem init_inv (lang : List (String × String)) : StInv lang ⟨[], []⟩ :=
  ⟨List.nodup_nil, fun id h => absurd h (List.not_mem_nil id),
    fun id h => absurd h (List.not_mem_nil id), fun p h => absurd h (List.not_mem_nil p)⟩

theorem scanState_inv (j : Jar) : StInv (loadLang j) (scanState j) :=
  phase2_inv _ _ _ (phase1_inv _ _ _ (init_inv _))

theorem foldl_max_eq (l : List Nat) :
    ∀ a : Nat, l.foldl Nat.max a = Nat.max a (l.foldr Nat.max 0) := by
  induction l with
  | nil => intro a; simp
  | cons b t ih =>
    intro a
    rw [List.foldl_cons, List.foldr_cons, ih]
    exact Nat.max_assoc a b _

theorem flatten_replicate_singleton (c : Char) :
    ∀ n : Nat, (List.replicate n [ c ]).flatten = List.replicate n c := by
  intro n
  induction n with
  | zero => rfl
  | succ m ih => simp [List.replicate_succ, ih]

theorem pyReplace_strip_json (dir : String) (hdir : dir.data ≠ []) (mid : String)
    (h1 : ∀ i < mid.data.length,
      ".json".data.isPrefixOf (List.drop i (mid.data ++ ".json".data)) = false)
    (h2 : hasPat dir.data (mid.data ++ ".json".data) = false) :
    pyReplace (pyReplace (dir ++ mid ++ ".json") dir "") ".json" "" = mid := by
  have hdata : (dir ++ mid ++ ".json").data
      = dir.data ++ (mid.data ++ ".json".data) := by
    rw [String.data_append, String.data_append, List.append_assoc]
  have hinner : pyReplace (dir ++ mid ++ ".json") dir "" = mid ++ ".json" := by
    unfold pyReplace
    rw [show ("" : String).data = [] from rfl]
    rw [hdata]
    rw [replaceAllAux_strip_head hdir _ _ (le_refl _)]
    rw [replaceAllAux_no_occ _ _ h2 (le_refl _)]
    apply string_eq_of_data
    rw [List.nil_append, String.data_append]
  have houter : pyReplace (mid ++ ".json") ".json" "" = mid := by
    unfold pyReplace
    rw [show ("" : String).data = [] from rfl]
    rw [String.data_append]
    rw [replaceAllAux_trailing (by decide) mid.data _ h1 (le_refl _)]
  rw [hinner, houter]

/-- Claim C1 (counterexample): in `jarOakLog` the identifier
`minecraft:oak_log` is first produced by the item-model category, the
localization mapping contains the expected block key
`block.minecraft.oak_log`, yet the resolved name is the fallback `Oak Log`,
not the localized `Oak Wood Log`: a localization match does not override a
previously stored fallback. -/
theorem C1_counterexample :
    extractFromJar jarOakLog = [ ⟨"minecraft:oak_log", "Oak Log"⟩ ] ∧
    dictGet (loadLang jarOakLog) (blockKey "oak_log") = some "Oak Wood Log" ∧
    ("Oak Log" : String) ≠ "Oak Wood Log" :=
  ⟨by decide, by decide, by decide⟩

/-- Claim C1 (amended): for an identifier derived from an item-model entry, a
localization entry under the `item.minecraft.*` key is authoritative — the
returned record carries exactly the localized string, overriding the
fallback.  (A `block.minecraft.*` entry, by contrast, is consulted only when
the identifier has no stored name yet, as the counterexample shows.) -/
theorem C1_amended (j : Jar) (entry : String) (he : entry ∈ j.names)
    (hs : pyStartswith entry itemModelDir = true) (v : String)
    (hv : dictGet (loadLang j) (itemKey (derivedItemName entry)) = some v) :
    (⟨mcns ++ derivedItemName entry, v⟩ : Record) ∈ extractFromJar j := by
  rw [extractFromJar_eq]
  apply mem_buildRecords.mpr
  have hmemf : entry ∈ j.names.filter (fun n => pyStartswith n itemModelDir) :=
    List.mem_filter.mpr ⟨he, hs⟩
  refine ⟨mcns ++ derivedItemName entry, ?_, ?_⟩
  · exact phase2_ids_sub _ _ _ (phase1_mem_ids _ _ _ entry hmemf)
  · have h1 := phase1_resolved (loadLang j)
      (j.names.filter (fun n => pyStartswith n itemModelDir)) ⟨[], []⟩ entry hmemf
    have h2 : itemResolved (loadLang j) (derivedItemName entry) = v := by
      unfold itemResolved
      rw [hv]
    rw [h2] at h1
    have h3 := phase2_lookup_preserved (loadLang j) j.names _ h1
    exact (recordFor_name_eq h3).symm

/-- Claim C1 (witness): concrete run of the amended theorem on `jarDiamond`. -/
theorem C1_witness :
    (⟨mcns ++ derivedItemName "assets/minecraft/models/item/diamond_sword.json",
      "Diamond Sword"⟩ : Record) ∈ extractFromJar jarDiamond :=
  C1_amended jarDiamond "assets/minecraft/models/item/diamond_sword.json"
    (by decide) (by decide) "Diamond Sword" (by decide)

/-- Claim C2 (counterexample): two failures of the unconditional claim.  The
directory-placeholder entry equal to the scanned prefix itself yields the
record `⟨"minecraft:", ""⟩` — an identifier with an empty segment and an
empty display name; and a localization entry whose value is the empty string
yields the record `⟨"minecraft:stick", ""⟩` — an empty display name even for
a non-empty segment. -/
theorem C2_counterexample :
    extractFromJar jarPlaceholder = [ ⟨"minecraft:", ""⟩ ] ∧
    extractFromJar jarEmptyLoc = [ ⟨"minecraft:stick", ""⟩ ] :=
  ⟨by decide, by decide⟩

/-- Claim C2 (amended): every returned record's identifier has the form
`minecraft:segment`, and — provided every localization value is non-empty —
every record whose segment is non-empty has a non-empty display name.  (Both
provisos are forced by the counterexample: a placeholder entry equal to a
scanned prefix produces the empty segment and the empty name, and an empty
localization value produces an empty name for a non-empty segment.) -/
theorem C2_amended (j : Jar) (hl : ∀ kv ∈ loadLang j, kv.2 ≠ "")
    {r : Record} (hr : r ∈ extractFromJar j) :
    ∃ seg, r.id = mcns ++ seg ∧ (seg ≠ "" → r.en_name ≠ "") := by
  rw [extractFromJar_eq] at hr
  rcases mem_buildRecords.mp hr with ⟨id, hid, rfl⟩
  obtain ⟨hnd, hids, hbound, hname⟩ := scanState_inv j
  obtain ⟨v, hv⟩ := Option.isSome_iff_exists.mp (hbound id hid)
  rcases hname _ (mem_of_lookup hv) with ⟨n, hn1, hcase⟩
  refine ⟨n, ?_, ?_⟩
  · rw [recordFor_name_eq hv]
    exact hn1
  · intro hne
    rw [recordFor_name_eq hv]
    show v ≠ ""
    rcases hcase with hf | hkey | hkey
    · have hf' : v = readableName n := hf
      rw [hf']
      exact readableName_ne_empty hne
    · exact hl _ (dictGet_mem hkey)
    · exact hl _ (dictGet_mem hkey)

/-- Claim C2 (witness): concrete run of the amended theorem on `jarStick`. -/
theorem C2_witness :
    ∃ seg, (⟨"minecraft:stick", "Stick"⟩ : Record).id = mcns ++ seg ∧
      (seg ≠ "" → (⟨"minecraft:stick", "Stick"⟩ : Record).en_name ≠ "") :=
  C2_amended jarStick (by decide) (by decide)

/-- Claim C3: for every readable archive, the returned record list is
strictly ascending in the identifier (ordinal comparison on the character
sequence), hence sorted and free of duplicate identifiers. -/
theorem C3_sorted_nodup (j : Jar) :
    List.Pairwise (fun a b : Record => a.id < b.id) (extractFromJar j) := by
  rw [extractFromJar_eq]
  exact buildRecords_pairwise (scanState_inv j).1

/-- Claim C4: when the directory listing contains no `.jar` file, the
extractor fails with the not-found error naming the searched directory, and
the run writes no output file. -/
theorem C4_missing_jar_error (path : String) (listing : List String) (jars : String → Jar)
    (h : ∀ f ∈ listing, pyEndswith f ".jar" = false) :
    extract_item_data_from_jar path listing jars = .error (jarNotFoundMsg path) ∧
    ∀ dirExists : Bool, runMain dirExists path listing jars = none := by
  have hf : listing.filter (fun f => pyEndswith f ".jar") = [] := by
    rw [List.filter_eq_nil_iff]
    intro a ha
    simp [h a ha]
  have he : extract_item_data_from_jar path listing jars = .error (jarNotFoundMsg path) := by
    unfold extract_item_data_from_jar
    rw [hf]
  refine ⟨he, ?_⟩
  intro dirExists
  cases dirExists with
  | false => rfl
  | true => simp [runMain, he]

/-- Claim C4 (witness): concrete directory with no `.jar` file. -/
theorem C4_witness :
    extract_item_data_from_jar "dir" [ "readme.txt" ] trivJars =
      .error (jarNotFoundMsg "dir") ∧
    runMain true "dir" [ "readme.txt" ] trivJars = none := by
  have H := C4_missing_jar_error "dir" [ "readme.txt" ] trivJars (by decide)
  exact ⟨H.1, H.2 true⟩

/-- Claim C5 (counterexample): the derivation removes every occurrence of
`.json`, not just a trailing extension — the entry
`assets/minecraft/models/item/a.json.json` yields the segment `a`, not the
claimed `a.json`. -/
theorem C5_counterexample :
    extractFromJar jarDotJson = [ ⟨"minecraft:a", "A"⟩ ] ∧
    derivedItemName "assets/minecraft/models/item/a.json.json" = "a" ∧
    ("a" : String) ≠ "a.json" :=
  ⟨by decide, by decide, by decide⟩

/-- Claim C5 (amended): the code removes all occurrences of the directory
prefix and of `.json` from the entry path, in every one of the three scanned
categories; when the prefix does not reoccur in the remainder and `.json`
occurs only as the trailing extension, the derived segment is exactly the
remainder with that extension stripped. -/
theorem C5_amended (mid : String)
    (h1 : ∀ i < mid.data.length,
      ".json".data.isPrefixOf (List.drop i (mid.data ++ ".json".data)) = false) :
    (hasPat itemModelDir.data (mid.data ++ ".json".data) = false →
      derivedItemName (itemModelDir ++ mid ++ ".json") = mid) ∧
    (hasPat recipesDir.data (mid.data ++ ".json".data) = false →
      derivedRecipeName (recipesDir ++ mid ++ ".json") = mid) ∧
    (hasPat blockModelDir.data (mid.data ++ ".json".data) = false →
      derivedBlockName (blockModelDir ++ mid ++ ".json") = mid) :=
  ⟨fun h2 => pyReplace_strip_json itemModelDir (by decide) mid h1 h2,
    fun h2 => pyReplace_strip_json recipesDir (by decide) mid h1 h2,
    fun h2 => pyReplace_strip_json blockModelDir (by decide) mid h1 h2⟩

/-- Claim C5 (witness): concrete runs of the amended theorem on `stick` for
all three scanned categories. -/
theorem C5_witness :
    derivedItemName (itemModelDir ++ "stick" ++ ".json") = "stick" ∧
    derivedRecipeName (recipesDir ++ "stick" ++ ".json") = "stick" ∧
    derivedBlockName (blockModelDir ++ "stick" ++ ".json") = "stick" := by
  have H := C5_amended "stick" (by decide)
  exact ⟨H.1 (by decide), H.2.1 (by decide), H.2.2 (by decide)⟩

/-- Claim C6: a record whose identifier has no localization entry under
either its item key or its block key carries exactly the fallback transform
of its segment (underscores to spaces, then title case). -/
theorem C6_fallback_when_unlocalized (j : Jar) {r : Record} (hr : r ∈ extractFromJar j)
    (n : String) (hid : r.id = mcns ++ n)
    (hitem : dictGet (loadLang j) (itemKey n) = none)
    (hblock : dictGet (loadLang j) (blockKey n) = none) :
    r.en_name = readableName n := by
  rw [extractFromJar_eq] at hr
  rcases mem_buildRecords.mp hr with ⟨id, hmem, rfl⟩
  obtain ⟨hnd, hids, hbound, hname⟩ := scanState_inv j
  obtain ⟨v, hv⟩ := Option.isSome_iff_exists.mp (hbound id hmem)
  have hid2 : id = mcns ++ n := by
    rw [recordFor_name_eq hv] at hid
    exact hid
  rcases hname _ (mem_of_lookup hv) with ⟨n', hn1, hcase⟩
  have hnn : n' = n := mcns_append_inj (hn1.symm.trans hid2)
  subst hnn
  rw [recordFor_name_eq hv]
  show v = readableName n'
  rcases hcase with hf | hkey | hkey
  · exact hf
  · rw [hitem] at hkey
    cases hkey
  · rw [hblock] at hkey
    cases hkey

/-- Claim C6 (witness): concrete run on `jarStick`, whose archive has no
localization file. -/
theorem C6_witness :
    (⟨"minecraft:stick", "Stick"⟩ : Record).en_name = readableName "stick" :=
  C6_fallback_when_unlocalized jarStick (by decide) "stick" (by decide) (by decide)
    (by decide)

/-- Claim C7: the identifier column width is the maximum identifier length
(10 when the list is empty) plus 2, the name column width is the maximum name
length (20 when empty) plus 2, and the separator row is
identifier-width dashes, `-+-`, then name-width dashes. -/
theorem C7_table_widths_separator (item_data : List Record) :
    max_id_len item_data =
      (if item_data = [] then 10
        else (item_data.map (fun r => r.id.length)).foldr Nat.max 0) + 2 ∧
    max_en_len item_data =
      (if item_data = [] then 20
        else (item_data.map (fun r => r.en_name.length)).foldr Nat.max 0) + 2 ∧
    tableSeparator item_data =
      (⟨List.replicate (max_id_len item_data) '-'⟩ : String) ++ "-+-" ++
        (⟨List.replicate (max_en_len item_data) '-'⟩ : String) := by
  refine ⟨?_, ?_, ?_⟩
  · cases item_data with
    | nil => simp [max_id_len, pyMaxOr]
    | cons a l =>
      rw [if_neg (by simp)]
      show pyMaxOr ((a :: l).map (fun r => r.id.length)) 10 + 2 = _
      simp only [List.map_cons, List.foldr_cons]
      show (l.map (fun r => r.id.length)).foldl Nat.max a.id.length + 2 = _
      rw [foldl_max_eq]
  · cases item_data with
    | nil => simp [max_en_len, pyMaxOr]
    | cons a l =>
      rw [if_neg (by simp)]
      show pyMaxOr ((a :: l).map (fun r => r.en_name.length)) 20 + 2 = _
      simp only [List.map_cons, List.foldr_cons]
      show (l.map (fun r => r.en_name.length)).foldl Nat.max a.en_name.length + 2 = _
      rw [foldl_max_eq]
  · show pyStrMul "-" (max_id_len item_data) ++ "-+-" ++
      pyStrMul "-" (max_en_len item_data) = _
    unfold pyStrMul
    rw [show ("-" : String).data = [ '-' ] from rfl]
    rw [flatten_replicate_singleton, flatten_replicate_singleton]

/-- Claim C8: in the recipe/block loop, a candidate whose processing step
fails is skipped — the fold over the candidate list behaves as if that
candidate were absent — and the program's actual per-candidate body
(`processRB`, the embedded `try` block) always succeeds, so no exception
ever aborts the extraction. -/
theorem C8_per_candidate_skip :
    (∀ (step : St → String → Except String St) (xs : List String) (x : String)
        (ys : List String) (st : St) (e : String),
        step (tryFold step st xs) x = .error e →
        tryFold step st (xs ++ x :: ys) = tryFold step st (xs ++ ys)) ∧
    (∀ (lang : List (String × String)) (d : String) (st : St) (f : String),
        processRB lang d st f = .ok (rbBody lang d st f)) := by
  constructor
  · intro step xs x ys st e herr
    unfold tryFold at herr ⊢
    rw [List.foldl_append, List.foldl_append, List.foldl_cons]
    congr 1
    simp only [herr]
  · intro lang d st f
    rfl

/-- Claim C8 (witness): a concrete failing candidate (`badStep` on `"boom"`)
is skipped, and a concrete recipe candidate is processed successfully. -/
theorem C8_witness :
    tryFold badStep ⟨[], []⟩ ([ "a" ] ++ "boom" :: [ "c" ]) =
      tryFold badStep ⟨[], []⟩ ([ "a" ] ++ [ "c" ]) ∧
    processRB [] recipesDir ⟨[], []⟩ "data/minecraft/recipes/x.json" =
      .ok (rbBody [] recipesDir ⟨[], []⟩ "data/minecraft/recipes/x.json") :=
  ⟨C8_per_candidate_skip.1 badStep [ "a" ] "boom" [ "c" ] ⟨[], []⟩ "boom" rfl,
    C8_per_candidate_skip.2 [] recipesDir ⟨[], []⟩ "data/minecraft/recipes/x.json"⟩

/-- Claim C9: the extraction is deterministic — it depends only on the
archive's internal name listing and localization contents, so two archives
agreeing on those produce identical record lists (and a second run on the
same archive returns the same list). -/
theorem C9_deterministic (j1 j2 : Jar) (hn : j1.names = j2.names)
    (hl : j1.langData = j2.langData) : extractFromJar j1 = extractFromJar j2 := by
  cases j1
  cases j2
  simp only at hn hl
  rw [hn, hl]

/-- Claim C9 (witness): running the extraction twice on `jarStick` yields the
same output. -/
theorem C9_witness : extractFromJar jarStick = extractFromJar jarStick :=
  C9_deterministic jarStick jarStick rfl rfl

/-- Claim C10: every archive entry under one of the three scanned prefixes
produces a record, whatever its file extension — the derived identifier
(whose segment retains any non-`.json` extension) appears among the returned
identifiers. -/
theorem C10_all_prefixed_entries (j : Jar) (entry : String) (he : entry ∈ j.names) :
    (pyStartswith entry itemModelDir = true →
      mcns ++ derivedItemName entry ∈ (extractFromJar j).map Record.id) ∧
    (pyStartswith entry recipesDir = true →
      mcns ++ derivedRecipeName entry ∈ (extractFromJar j).map Record.id) ∧
    (pyStartswith entry blockModelDir = true →
      mcns ++ derivedBlockName entry ∈ (extractFromJar j).map Record.id) := by
  rw [extractFromJar_eq]
  refine ⟨?_, ?_, ?_⟩
  · intro hs
    apply mem_map_id_buildRecords
    exact phase2_ids_sub _ _ _
      (phase1_mem_ids _ _ _ entry (List.mem_filter.mpr ⟨he, hs⟩))
  · intro hs
    apply mem_map_id_buildRecords
    have hrb : rbName recipesDir entry = derivedRecipeName entry := if_pos rfl
    show mcns ++ derivedRecipeName entry ∈ (scanState j).ids
    unfold scanState
    rw [phase2_eq, ← hrb]
    exact foldl_rb_ids_sub _ _ _ _
      (foldl_rb_mem_ids _ _ _ _ entry (List.mem_filter.mpr ⟨he, hs⟩))
  · intro hs
    apply mem_map_id_buildRecords
    have hrb : rbName blockModelDir entry = derivedBlockName entry := by
      unfold rbName
      rw [if_neg (by decide)]
    show mcns ++ derivedBlockName entry ∈ (scanState j).ids
    unfold scanState
    rw [phase2_eq, ← hrb]
    exact foldl_rb_mem_ids _ _ _ _ entry (List.mem_filter.mpr ⟨he, hs⟩)

/-- Claim C10 (witness): the `.png` entry of `jarPng` still yields a record
whose identifier keeps the `.png` extension. -/
theorem C10_witness :
    mcns ++ derivedItemName "assets/minecraft/models/item/foo.png" ∈
      (extractFromJar jarPng).map Record.id :=
  (C10_all_prefixed_entries jarPng "assets/minecraft/models/item/foo.png" (by decide)).1
    (by decide)

end MCItemID
